import Mathlib

/-!
# Verification of the kudu row-scan filter core

Shallow embedding of three subsystems of the repository, with proofs of the
spec's claims about them:

* `BlockBloomFilter` — split block Bloom filter
  (from `src/kudu/util/block_bloom_filter.cc`);
* `ColumnPredicate` — typed single-column predicates with merge and
  cell evaluation (from `src/kudu/common/column_predicate.h`; the merge
  implementation lives in `column_predicate.cc`, which is not part of the
  sources here, so it is modelled from the spec);
* the sharded block cache (only `cache-test.cc` is part of the sources here,
  so the cache itself is modelled from the spec and checked against the
  behaviour the tests demand).

Machine integers are modelled as `Nat` with explicit reduction `% 2 ^ 32`
where the C++ code relies on `uint32_t` wrap-around.
-/

namespace Kudu

/-! ## BlockBloomFilter (src/kudu/util/block_bloom_filter.cc)

The constants below come from the block Bloom filter layout: 32-byte buckets
(`kLogBucketByteSize = 5`) of eight (`kBucketWords`) 32-bit words
(`kLogBucketWordBits = 5`).  The header `block_bloom_filter.h` is not among
the given sources; the spec fixes the layout (§3.4, §4.1), so these constants
follow the spec. -/

def kLogBucketByteSize : Int := 5

def kBucketWords : Nat := 8

def kLogBucketWordBits : Nat := 5

/-- Modelled from the spec: `block_bloom_filter.h` (which holds the `kRehash`
array) is not among the given sources.  The spec (§4.1) requires "a fixed
array of 8 odd 32-bit multipliers, used identically on insert and query". -/
def kRehash : Fin 8 → Nat
  | 0 => 0x47b6137b
  | 1 => 0x44974d91
  | 2 => 0x8824ad5b
  | 3 => 0xa2b7289d
  | 4 => 0x705495c7
  | 5 => 0x2df1424b
  | 6 => 0x9efc4947
  | 7 => 0x5c6bfb31

/-- Modelled from the spec: the 32-bit rehash used to pick the bucket
(`Rehash32to32` lives in a header that is not among the given sources).  The
spec (§3.4) only requires a fixed 32-bit-to-32-bit function applied
identically by `Insert` and `Find`; we use an odd multiplicative hash. -/
def Rehash32to32 (hash : Nat) : Nat := (hash * 0x9e3779b9) % 2 ^ 32

/-- The bit position (0..31) that lane `i` sets/tests for `hash`:
`(kRehash[i] * hash) >> ((1 << kLogBucketWordBits) - kLogBucketWordBits)`,
with the `uint32_t` product wrapping modulo `2^32`
(`BucketInsert`/`BucketFind`, block_bloom_filter.cc lines 108/122). -/
def bucketBitPos (hash : Nat) (i : Fin 8) : Nat :=
  ((kRehash i * hash) % 2 ^ 32) >>> ((1 <<< kLogBucketWordBits) - kLogBucketWordBits)

/-- State of a `BlockBloomFilter`: the directory is a map from bucket index
and lane to the 32-bit word stored there. -/
structure BlockBloomFilter where
  always_false : Bool
  log_num_buckets : Nat
  directory_mask : Nat
  directory : Nat → Fin 8 → Nat

/-- The state set up by the constructor
(block_bloom_filter.cc lines 46–64): `always_false_ = true`,
`log_num_buckets_ = 0`, `directory_mask_ = 0`, no directory contents. -/
def BlockBloomFilter.new : BlockBloomFilter :=
  { always_false := true
    log_num_buckets := 0
    directory_mask := 0
    directory := fun _ _ => 0 }

/-- `BlockBloomFilter::BucketInsert` (lines 100–116): OR one bit per lane
into bucket `bucket_idx`.  The SSE code ORs the eight freshly computed words
into the eight words of the bucket, which is exactly this per-lane OR. -/
def BlockBloomFilter.BucketInsert (f : BlockBloomFilter) (bucket_idx hash : Nat) :
    BlockBloomFilter :=
  { f with directory := fun b i =>
      if b = bucket_idx then f.directory b i ||| (1 <<< bucketBitPos hash i)
      else f.directory b i }

/-- `BlockBloomFilter::BucketFind` (lines 118–129): every lane's bit must be
set in the bucket. -/
def BlockBloomFilter.BucketFind (f : BlockBloomFilter) (bucket_idx hash : Nat) : Bool :=
  (List.finRange 8).all fun i =>
    f.directory bucket_idx i &&& (1 <<< bucketBitPos hash i) != 0

/-- `BlockBloomFilter::Insert` (lines 170–175): clear `always_false_`, pick
the bucket by `Rehash32to32(hash) & directory_mask_`, and insert.  (The
non-AVX2 `BucketInsert` is the normative implementation.) -/
def BlockBloomFilter.Insert (f : BlockBloomFilter) (hash : Nat) : BlockBloomFilter :=
  let bucket_idx := Rehash32to32 hash &&& f.directory_mask
  BucketInsert { f with always_false := false } bucket_idx hash

/-- `BlockBloomFilter::Find` (lines 177–184). -/
def BlockBloomFilter.Find (f : BlockBloomFilter) (hash : Nat) : Bool :=
  if f.always_false then false
  else
    let bucket_idx := Rehash32to32 hash &&& f.directory_mask
    f.BucketFind bucket_idx hash

/-- A sequence of `Insert` calls. -/
def insertList (f : BlockBloomFilter) (hs : List Nat) : BlockBloomFilter :=
  hs.foldl BlockBloomFilter.Insert f

/-- Status results relevant to `BlockBloomFilter::Init`. -/
inductive Status
  | OK
  | InvalidArgument
  | RuntimeError
deriving DecidableEq

/-- Result of a successful buffer allocation: how many bytes were obtained
and with which alignment. -/
structure Allocation where
  bytes : Nat
  alignment : Nat
deriving DecidableEq

/-- Modelled from the spec: `CACHELINE_SIZE` (the alignment passed to
`posix_memalign` in `DefaultBlockBloomFilterBufferAllocator::AllocateBuffer`)
is defined in a gutil header that is not among the given sources; the spec
(§4.1) requires at least 32-byte alignment and the constant names a CPU cache
line, so 64 is used. -/
def CACHELINE_SIZE : Nat := 64

/-- `DefaultBlockBloomFilterBufferAllocator::AllocateBuffer`
(block_bloom_filter.cc lines 186–190): `posix_memalign` with
`CACHELINE_SIZE` alignment; failure yields `Status::RuntimeError`.  Whether
the underlying allocation succeeds is an environment input, passed here as
`memalignOk`. -/
def DefaultAllocateBuffer (memalignOk : Bool) (bytes : Nat) : Except Status Allocation :=
  if memalignOk then Except.ok { bytes := bytes, alignment := CACHELINE_SIZE }
  else Except.error Status.RuntimeError

/-- Directory size in bytes: `2 ^ log_num_buckets` buckets of 32 bytes
(spec §4.1; `directory_size()` lives in the header, not among the given
sources). -/
def directory_size (log_num_buckets : Nat) : Nat := 2 ^ log_num_buckets * 32

/-- `BlockBloomFilter::Init` (lines 71–91) composed with the constructor:
`log_num_buckets_ = max(1, log_space_bytes - kLogBucketByteSize)`; error
`InvalidArgument` if that exceeds 32 (no allocation happens and no filter
state is produced); otherwise `directory_mask_ = 2 ^ log_num_buckets - 1`,
the buffer of `directory_size` bytes is allocated (alignment per the
default allocator) and zeroed with `memset`. -/
def BlockBloomFilter.Init (memalignOk : Bool) (log_space_bytes : Int) :
    Except Status (BlockBloomFilter × Allocation) :=
  let log_num_buckets : Int := max 1 (log_space_bytes - kLogBucketByteSize)
  if 32 < log_num_buckets then Except.error Status.InvalidArgument
  else
    let lnb := log_num_buckets.toNat
    match DefaultAllocateBuffer memalignOk (directory_size lnb) with
    | Except.error e => Except.error e
    | Except.ok alloc =>
        Except.ok
          ({ always_false := true
             log_num_buckets := lnb
             directory_mask := 2 ^ lnb - 1
             directory := fun _ _ => 0 }, alloc)

/-! ### Bloom filter lemmas -/

theorem and_shiftLeft_one_ne_zero (x p : Nat) :
    (x &&& (1 <<< p) ≠ 0) ↔ x.testBit p = true := by
  rw [Nat.shiftLeft_eq, one_mul, Nat.and_two_pow]
  cases hx : x.testBit p
  · simp
  · simp [pow_ne_zero p (show (2 : Nat) ≠ 0 by norm_num)]

theorem find_eq (f : BlockBloomFilter) (h : Nat) :
    f.Find h =
      (!f.always_false && f.BucketFind (Rehash32to32 h &&& f.directory_mask) h) := by
  unfold BlockBloomFilter.Find
  cases haf : f.always_false <;> simp

theorem insert_always_false (f : BlockBloomFilter) (h : Nat) :
    (f.Insert h).always_false = false := rfl

theorem insert_mask (f : BlockBloomFilter) (h : Nat) :
    (f.Insert h).directory_mask = f.directory_mask := rfl

theorem insert_directory (f : BlockBloomFilter) (h : Nat) (b : Nat) (i : Fin 8) :
    (f.Insert h).directory b i =
      if b = Rehash32to32 h &&& f.directory_mask then
        f.directory b i ||| (1 <<< bucketBitPos h i)
      else f.directory b i := rfl

theorem bucketFind_eq_true_iff (f : BlockBloomFilter) (b h : Nat) :
    f.BucketFind b h = true ↔
      ∀ i : Fin 8, (f.directory b i).testBit (bucketBitPos h i) = true := by
  unfold BlockBloomFilter.BucketFind
  simp only [List.all_eq_true, bne_iff_ne]
  constructor
  · intro hall i
    rw [← and_shiftLeft_one_ne_zero]
    exact hall i (List.mem_finRange i)
  · intro hall i _
    rw [and_shiftLeft_one_ne_zero]
    exact hall i

theorem find_mono_insert (f : BlockBloomFilter) (g h : Nat)
    (hfind : f.Find g = true) : (f.Insert h).Find g = true := by
  rw [find_eq, Bool.and_eq_true] at hfind ⊢
  obtain ⟨-, hbf⟩ := hfind
  refine ⟨rfl, ?_⟩
  rw [bucketFind_eq_true_iff] at hbf ⊢
  intro i
  rw [insert_mask, insert_directory]
  by_cases hc :
      Rehash32to32 g &&& f.directory_mask = Rehash32to32 h &&& f.directory_mask
  · rw [if_pos hc, Nat.testBit_or, Bool.or_eq_true]
    exact Or.inl (hbf i)
  · rw [if_neg hc]
    exact hbf i

theorem find_insert_self (f : BlockBloomFilter) (h : Nat) :
    (f.Insert h).Find h = true := by
  rw [find_eq, Bool.and_eq_true]
  refine ⟨rfl, ?_⟩
  rw [bucketFind_eq_true_iff]
  intro i
  rw [insert_mask, insert_directory, if_pos rfl, Nat.testBit_or, Bool.or_eq_true]
  right
  rw [Nat.shiftLeft_eq, one_mul]
  exact Nat.testBit_two_pow_self

theorem find_mono_insertList (f : BlockBloomFilter) (g : Nat) (hs : List Nat)
    (hfind : f.Find g = true) : (insertList f hs).Find g = true := by
  induction hs generalizing f with
  | nil => exact hfind
  | cons h t ih =>
      exact ih (f.Insert h) (find_mono_insert f g h hfind)

/-- C2: no false negatives.  After inserting `h`, however many further
inserts happen, `Find h` is `true`. -/
theorem bloom_no_false_negative (f : BlockBloomFilter) (h : Nat) (hs : List Nat) :
    (insertList (f.Insert h) hs).Find h = true :=
  find_mono_insertList (f.Insert h) h hs (find_insert_self f h)

/-- C9: `Find` is monotone under insertion: a hash found in some filter state
is still found after any further sequence of `Insert` calls, since `Insert`
only ORs bits into bucket words and never resets `always_false_`. -/
theorem bloom_find_monotone (f : BlockBloomFilter) (g : Nat) (hs : List Nat)
    (hfind : f.Find g = true) : (insertList f hs).Find g = true :=
  find_mono_insertList f g hs hfind

theorem bloom_find_monotone_witness :
    (BlockBloomFilter.new.Insert 5).Find 5 = true ∧
      (insertList (BlockBloomFilter.new.Insert 5) [7, 9]).Find 5 = true :=
  ⟨by decide, bloom_find_monotone (BlockBloomFilter.new.Insert 5) 5 [7, 9] (by decide)⟩

/-- C4: `Find` returns `false` whenever `always_false_` is set (as it is on a
fresh filter, and `Insert` is the only operation clearing it); otherwise it
returns `true` iff every lane's bit is set in bucket
`Rehash32to32(h) & (num_buckets - 1)`. -/
theorem bloom_find_characterization (f : BlockBloomFilter) (h : Nat)
    (hm : f.directory_mask = 2 ^ f.log_num_buckets - 1) :
    BlockBloomFilter.new.always_false = true ∧
    (f.Insert h).always_false = false ∧
    (f.always_false = true → f.Find h = false) ∧
    (f.always_false = false →
      (f.Find h = true ↔ ∀ i : Fin 8,
        f.directory (Rehash32to32 h &&& (2 ^ f.log_num_buckets - 1)) i &&&
          (1 <<< bucketBitPos h i) ≠ 0)) := by
  refine ⟨rfl, rfl, ?_, ?_⟩
  · intro haf
    simp [BlockBloomFilter.Find, haf]
  · intro haf
    rw [find_eq, haf, Bool.not_false, Bool.true_and, bucketFind_eq_true_iff, hm]
    constructor
    · intro hall i
      rw [and_shiftLeft_one_ne_zero]
      exact hall i
    · intro hall i
      rw [← and_shiftLeft_one_ne_zero]
      exact hall i

theorem bloom_find_characterization_witness :
    BlockBloomFilter.new.directory_mask =
        2 ^ BlockBloomFilter.new.log_num_buckets - 1 ∧
      BlockBloomFilter.new.Find 3 = false :=
  ⟨by decide,
    (bloom_find_characterization BlockBloomFilter.new 3 (by decide)).2.2.1 (by decide)⟩

/-- C5: `Init` sets `log_num_buckets = max(1, log_space_bytes - 5)`, fails
with `InvalidArgument` exactly when that exceeds 32 (producing no filter
state and no allocation), otherwise allocates a zeroed directory of
`2 ^ log_num_buckets * 32` bytes with 32-byte-divisible alignment, and turns
an aligned-allocation failure into `RuntimeError`. -/
theorem bloom_init_spec (log_space_bytes : Int) (memalignOk : Bool) :
    ((BlockBloomFilter.Init memalignOk log_space_bytes =
        Except.error Status.InvalidArgument) ↔
      32 < max 1 (log_space_bytes - 5)) ∧
    (max 1 (log_space_bytes - 5) ≤ 32 → memalignOk = false →
      BlockBloomFilter.Init memalignOk log_space_bytes =
        Except.error Status.RuntimeError) ∧
    (max 1 (log_space_bytes - 5) ≤ 32 → memalignOk = true →
      ∃ f alloc,
        BlockBloomFilter.Init memalignOk log_space_bytes = Except.ok (f, alloc) ∧
        (f.log_num_buckets : Int) = max 1 (log_space_bytes - 5) ∧
        f.directory_mask = 2 ^ f.log_num_buckets - 1 ∧
        f.always_false = true ∧
        (∀ b i, f.directory b i = 0) ∧
        alloc.bytes = 2 ^ f.log_num_buckets * 32 ∧
        32 ∣ alloc.alignment) := by
  have hk : kLogBucketByteSize = 5 := rfl
  have hm1 : (1 : Int) ≤ max 1 (log_space_bytes - 5) := le_max_left _ _
  unfold BlockBloomFilter.Init
  rw [hk]
  by_cases hbig : 32 < max 1 (log_space_bytes - 5)
  · rw [if_pos hbig]
    exact ⟨by simp [hbig], fun hle _ => absurd hbig (by omega),
      fun hle _ => absurd hbig (by omega)⟩
  · rw [if_neg hbig]
    cases memalignOk with
    | false =>
        refine ⟨?_, fun _ _ => rfl, fun _ hcontra => absurd hcontra (by simp)⟩
        simp [DefaultAllocateBuffer, hbig]
    | true =>
        refine ⟨?_, fun _ hcontra => absurd hcontra (by simp), ?_⟩
        · simp [DefaultAllocateBuffer, hbig]
        · intro _ _
          refine ⟨_, _, rfl, ?_, rfl, rfl, fun b i => rfl, ?_, ?_⟩
          · show ((max 1 (log_space_bytes - 5)).toNat : Int) = max 1 (log_space_bytes - 5)
            omega
          · show directory_size (max 1 (log_space_bytes - 5)).toNat =
              2 ^ (max 1 (log_space_bytes - 5)).toNat * 32
            rfl
          · show (32 : Nat) ∣ CACHELINE_SIZE
            decide

theorem bloom_init_spec_witness :
    max 1 ((10 : Int) - 5) ≤ 32 ∧
      (∃ f alloc,
        BlockBloomFilter.Init true 10 = Except.ok (f, alloc) ∧
        (f.log_num_buckets : Int) = max 1 ((10 : Int) - 5) ∧
        f.directory_mask = 2 ^ f.log_num_buckets - 1 ∧
        f.always_false = true ∧
        (∀ b i, f.directory b i = 0) ∧
        alloc.bytes = 2 ^ f.log_num_buckets * 32 ∧
        32 ∣ alloc.alignment) :=
  ⟨by decide, (bloom_init_spec 10 true).2.2 (by decide) rfl⟩

/-! ## ColumnPredicate (src/kudu/common/column_predicate.h)

The predicate is embedded for a single non-nullable INT32 column: cells are
`Int` and `DataTypeTraits<INT32>::Compare` is the order on `Int`.
`EvaluateCell` and `EvaluateCellForBloomFilter` are translated from the
header (the authority); the merge implementation lives in
`column_predicate.cc`, which is not among the given sources, and is
modelled from the spec (§4.2.2). -/

/-- `PredicateType` (column_predicate.h lines 44–69). -/
inductive PredicateType
  | None
  | Equality
  | Range
  | IsNotNull
  | IsNull
  | InList
  | InBloomFilter
deriving DecidableEq

/-- Hash algorithms supported by the Bloom probe (spec §6.1; `hash.pb.h` is
not among the given sources). -/
inductive HashAlgorithm
  | CITY_HASH
  | FAST_HASH
  | MURMUR_HASH_2
deriving DecidableEq

/-- `ColumnPredicate::BloomFilterInner` (column_predicate.h lines 269–320):
a byte slice, a number of hash rounds, and a hash algorithm. -/
structure BloomFilterInner where
  bloom_data : List Nat
  nhash : Nat
  hash_algorithm : HashAlgorithm
deriving DecidableEq

def algoSeed : HashAlgorithm → Nat
  | HashAlgorithm.CITY_HASH => 0x9ae16a3b
  | HashAlgorithm.FAST_HASH => 0x880355f2
  | HashAlgorithm.MURMUR_HASH_2 => 0xc6a4a793

/-- The 4 little-endian bytes of an INT32 cell (spec §6.4). -/
def encodeInt32 (v : Int) : List Nat :=
  let u := (v % 2 ^ 32).toNat
  [u % 256, u / 2 ^ 8 % 256, u / 2 ^ 16 % 256, u / 2 ^ 24 % 256]

/-- A 64-bit digest of a byte string under a given algorithm. -/
def specHash64 (algo : HashAlgorithm) (bytes : List Nat) : Nat :=
  bytes.foldl (fun acc b => ((acc ^^^ b) * 0x100000001b3) % 2 ^ 64) (algoSeed algo)

/-- Modelled from the spec: `kudu/util/bloom_filter.h` (the classic
`BloomFilter`/`BloomKeyProbe` used by the InBloomFilter predicate) is not
among the given sources.  Per spec §6.1 the probe hashes the full cell byte
slice, splits the 64-bit digest into halves `(h1, h2)`, and the filter
checks `nhash` derived bit positions; what the proofs rely on is only that
this is a fixed deterministic function of `(bloom_data, nhash,
hash_algorithm, cell)`. -/
def BloomFilterMayContainKey (bf : BloomFilterInner) (cell : Int) : Bool :=
  let nbits := 8 * bf.bloom_data.length
  if nbits = 0 then true
  else
    let h := specHash64 bf.hash_algorithm (encodeInt32 cell)
    let h1 := h % 2 ^ 32
    let h2 := h / 2 ^ 32
    (List.range bf.nhash).all fun i =>
      (bf.bloom_data.getD ((h1 + i * h2) % nbits / 8) 0).testBit ((h1 + i * h2) % nbits % 8)

/-- `ColumnPredicate` data (column_predicate.h lines 418–436), for an INT32
column: the kind tag, optional lower/upper bounds, the sorted value list
(InList) and the Bloom filter list (InBloomFilter). -/
structure ColumnPredicate where
  predicate_type : PredicateType
  lower : Option Int
  upper : Option Int
  values : List Int
  bloom_filters : List BloomFilterInner
deriving DecidableEq

/-- `std::lower_bound` as used by `std::binary_search` (libstdc++ scheme:
halve the window `[first, first+len)` until it is empty). -/
def lower_bound (xs : List Int) (v : Int) (first len : Nat) : Nat :=
  if h : len = 0 then first
  else
    let half := len / 2
    let middle := first + half
    if xs.getD middle 0 < v then lower_bound xs v (middle + 1) (len - half - 1)
    else lower_bound xs v first half
termination_by len
decreasing_by
  · omega
  · omega

/-- `std::binary_search(values_.begin(), values_.end(), cell, comp)` as
called by `EvaluateCell` for InList (column_predicate.h lines 212–217):
locate the lower bound and check it is a live position not greater than the
probe. -/
def binary_search (xs : List Int) (v : Int) : Bool :=
  let i := lower_bound xs v 0 xs.length
  decide (i < xs.length) && !decide (v < xs.getD i 0)

/-- `ColumnPredicate::EvaluateCellForBloomFilter<INT32>`
(column_predicate.h lines 375–404): every filter must report the cell as
possibly contained, then the optional exclusive-range bounds are applied. -/
def EvaluateCellForBloomFilter (p : ColumnPredicate) (cell : Int) : Bool :=
  (p.bloom_filters.all fun bf => BloomFilterMayContainKey bf cell) &&
    (match p.lower, p.upper with
     | some l, some u => decide (cell < u) && decide (l ≤ cell)
     | none, some u => decide (cell < u)
     | some l, none => decide (l ≤ cell)
     | none, none => true)

/-- `ColumnPredicate::EvaluateCell<INT32>` (column_predicate.h lines
186–223).  The `none, none` Range case and the `none` Equality case
dereference a null pointer in the C++ (unreachable for canonical
predicates); the model returns `false` there. -/
def EvaluateCell (p : ColumnPredicate) (cell : Int) : Bool :=
  match p.predicate_type with
  | PredicateType.None => false
  | PredicateType.Range =>
      match p.lower, p.upper with
      | none, some u => decide (cell < u)
      | none, none => false
      | some l, none => decide (l ≤ cell)
      | some l, some u => decide (cell < u) && decide (l ≤ cell)
  | PredicateType.Equality =>
      match p.lower with
      | some l => decide (cell = l)
      | none => false
  | PredicateType.IsNotNull => true
  | PredicateType.IsNull => false
  | PredicateType.InList => binary_search p.values cell
  | PredicateType.InBloomFilter => EvaluateCellForBloomFilter p cell

/-- The cell-level semantics as the spec states it (§4.2.3): used as the
reference point for C3 and for the merge conjunction property. -/
def lowerOk (lo : Option Int) (cell : Int) : Bool :=
  match lo with
  | none => true
  | some l => decide (l ≤ cell)

def upperOk (hi : Option Int) (cell : Int) : Bool :=
  match hi with
  | none => true
  | some u => decide (cell < u)

def passesFilters (bfs : List BloomFilterInner) (cell : Int) : Bool :=
  bfs.all fun bf => BloomFilterMayContainKey bf cell

def specMatches (p : ColumnPredicate) (cell : Int) : Bool :=
  match p.predicate_type with
  | PredicateType.None => false
  | PredicateType.Range => lowerOk p.lower cell && upperOk p.upper cell
  | PredicateType.Equality =>
      match p.lower with
      | some l => decide (cell = l)
      | none => false
  | PredicateType.IsNotNull => true
  | PredicateType.IsNull => false
  | PredicateType.InList => decide (cell ∈ p.values)
  | PredicateType.InBloomFilter =>
      passesFilters p.bloom_filters cell &&
        (lowerOk p.lower cell && upperOk p.upper cell)

/-- The canonical-form invariants of spec §3.2 (for the INT32 embedding;
the IsNull nullability condition concerns the column, not the predicate
data). -/
def rangeBoundsOk (lo hi : Option Int) : Bool :=
  match lo, hi with
  | some l, some u => decide (l < u)
  | _, _ => true

def Canonical (p : ColumnPredicate) : Bool :=
  match p.predicate_type with
  | PredicateType.None =>
      p.lower.isNone && p.upper.isNone && p.values.isEmpty && p.bloom_filters.isEmpty
  | PredicateType.Equality => p.lower.isSome && p.upper.isNone
  | PredicateType.Range =>
      (p.lower.isSome || p.upper.isSome) && rangeBoundsOk p.lower p.upper
  | PredicateType.IsNotNull => true
  | PredicateType.IsNull => true
  | PredicateType.InList =>
      decide (2 ≤ p.values.length) && decide (List.Pairwise (· < ·) p.values)
  | PredicateType.InBloomFilter =>
      !p.bloom_filters.isEmpty && rangeBoundsOk p.lower p.upper

/-! ### Merge, modelled from the spec (§4.2.2)

`ColumnPredicate::Merge` and its helpers live in `column_predicate.cc`,
which is not among the given sources; the definitions below follow the
spec's merge table and its "Tie-break and edge cases" paragraph (an
Equality that fails any filter's MayContain check reduces to None — bloom
filters have no false negatives — otherwise Equality is kept and the
filters dropped), and afterwards `Simplify` is applied (empty ranges to
None, singleton ranges to Equality, short lists to Equality/None). -/

def nonePred : ColumnPredicate :=
  { predicate_type := PredicateType.None
    lower := none, upper := none, values := [], bloom_filters := [] }

def eqPred (v : Int) : ColumnPredicate :=
  { predicate_type := PredicateType.Equality
    lower := some v, upper := none, values := [], bloom_filters := [] }

def maxOptLower : Option Int → Option Int → Option Int
  | none, b => b
  | some l, none => some l
  | some l, some l2 => some (max l l2)

def minOptUpper : Option Int → Option Int → Option Int
  | none, b => b
  | some u, none => some u
  | some u, some u2 => some (min u u2)

def inRangeBounds (lo hi : Option Int) (v : Int) : Bool := lowerOk lo v && upperOk hi v

/-- Whether `v` passes all Bloom filters of `q` and `q`'s optional range
bounds (the spec's "value passes all bloom filters (and optional range)"). -/
def bloomAndBoundsOk (q : ColumnPredicate) (v : Int) : Bool :=
  passesFilters q.bloom_filters v && (lowerOk q.lower v && upperOk q.upper v)

/-- Modelled from the spec: `ColumnPredicate::Simplify`
("After any merge, run Simplify: ranges with empty intervals → None;
singleton ranges → Equality; InList with ≤1 element → Eq/None"; for
InBloomFilter the bounds obey Range conventions, so an empty interval also
collapses to None). -/
def Simplify (p : ColumnPredicate) : ColumnPredicate :=
  match p.predicate_type with
  | PredicateType.Range =>
      match p.lower, p.upper with
      | some l, some u =>
          if u ≤ l then nonePred
          else if u = l + 1 then eqPred l
          else p
      | _, _ => p
  | PredicateType.InList =>
      match p.values with
      | [] => nonePred
      | [v] => eqPred v
      | _ => p
  | PredicateType.InBloomFilter =>
      match p.lower, p.upper with
      | some l, some u => if u ≤ l then nonePred else p
      | _, _ => p
  | _ => p

/-- Modelled from the spec: the merge table of §4.2.2 (left kind = `p`,
right kind = `q`), before simplification.  Equality values are read from
`lower` (canonical Equality always carries one). -/
def MergeRaw (p q : ColumnPredicate) : ColumnPredicate :=
  match p.predicate_type with
  | PredicateType.None => nonePred
  | PredicateType.IsNull =>
      match q.predicate_type with
      | PredicateType.IsNull => p
      | _ => nonePred
  | PredicateType.IsNotNull =>
      match q.predicate_type with
      | PredicateType.None => nonePred
      | PredicateType.IsNull => nonePred
      | _ => q
  | PredicateType.Equality =>
      match q.predicate_type with
      | PredicateType.None => nonePred
      | PredicateType.IsNull => nonePred
      | PredicateType.IsNotNull => p
      | PredicateType.Equality => if p.lower = q.lower then p else nonePred
      | PredicateType.Range =>
          if inRangeBounds q.lower q.upper (p.lower.getD 0) then p else nonePred
      | PredicateType.InList =>
          if decide ((p.lower.getD 0) ∈ q.values) then p else nonePred
      | PredicateType.InBloomFilter =>
          if bloomAndBoundsOk q (p.lower.getD 0) then p else nonePred
  | PredicateType.Range =>
      match q.predicate_type with
      | PredicateType.None => nonePred
      | PredicateType.IsNull => nonePred
      | PredicateType.IsNotNull => p
      | PredicateType.Equality =>
          if inRangeBounds p.lower p.upper (q.lower.getD 0) then q else nonePred
      | PredicateType.Range =>
          { predicate_type := PredicateType.Range
            lower := maxOptLower p.lower q.lower
            upper := minOptUpper p.upper q.upper
            values := [], bloom_filters := [] }
      | PredicateType.InList =>
          { predicate_type := PredicateType.InList
            lower := none, upper := none
            values := q.values.filter fun v => inRangeBounds p.lower p.upper v
            bloom_filters := [] }
      | PredicateType.InBloomFilter =>
          { predicate_type := PredicateType.InBloomFilter
            lower := maxOptLower p.lower q.lower
            upper := minOptUpper p.upper q.upper
            values := [], bloom_filters := q.bloom_filters }
  | PredicateType.InList =>
      match q.predicate_type with
      | PredicateType.None => nonePred
      | PredicateType.IsNull => nonePred
      | PredicateType.IsNotNull => p
      | PredicateType.Equality =>
          if decide ((q.lower.getD 0) ∈ p.values) then q else nonePred
      | PredicateType.Range =>
          { predicate_type := PredicateType.InList
            lower := none, upper := none
            values := p.values.filter fun v => inRangeBounds q.lower q.upper v
            bloom_filters := [] }
      | PredicateType.InList =>
          { predicate_type := PredicateType.InList
            lower := none, upper := none
            values := p.values.filter fun v => decide (v ∈ q.values)
            bloom_filters := [] }
      | PredicateType.InBloomFilter =>
          { predicate_type := PredicateType.InList
            lower := none, upper := none
            values := p.values.filter fun v => bloomAndBoundsOk q v
            bloom_filters := [] }
  | PredicateType.InBloomFilter =>
      match q.predicate_type with
      | PredicateType.None => nonePred
      | PredicateType.IsNull => nonePred
      | PredicateType.IsNotNull => p
      | PredicateType.Equality =>
          if bloomAndBoundsOk p (q.lower.getD 0) then q else nonePred
      | PredicateType.Range =>
          { predicate_type := PredicateType.InBloomFilter
            lower := maxOptLower p.lower q.lower
            upper := minOptUpper p.upper q.upper
            values := [], bloom_filters := p.bloom_filters }
      | PredicateType.InList =>
          { predicate_type := PredicateType.InList
            lower := none, upper := none
            values := q.values.filter fun v => bloomAndBoundsOk p v
            bloom_filters := [] }
      | PredicateType.InBloomFilter =>
          { predicate_type := PredicateType.InBloomFilter
            lower := maxOptLower p.lower q.lower
            upper := minOptUpper p.upper q.upper
            values := [], bloom_filters := p.bloom_filters ++ q.bloom_filters }

/-- `a.Merge(b)`: conjunction per the spec's table, then `Simplify`. -/
def Merge (p q : ColumnPredicate) : ColumnPredicate := Simplify (MergeRaw p q)

/-! ### Binary search correctness -/

theorem sorted_getD (xs : List Int) (hs : List.Pairwise (· ≤ ·) xs) :
    ∀ i j, i ≤ j → j < xs.length → xs.getD i 0 ≤ xs.getD j 0 := by
  intro i j hij hj
  rcases Nat.lt_or_ge i j with hlt | hge
  · rw [List.getD_eq_getElem xs 0 (by omega), List.getD_eq_getElem xs 0 hj]
    exact List.pairwise_iff_get.mp hs ⟨i, by omega⟩ ⟨j, hj⟩ hlt
  · have : i = j := by omega
    subst this
    exact le_refl _

theorem lower_bound_spec (xs : List Int) (v : Int)
    (hsort : ∀ i j, i ≤ j → j < xs.length → xs.getD i 0 ≤ xs.getD j 0) :
    ∀ len first, first + len ≤ xs.length →
      (∀ j, j < first → j < xs.length → xs.getD j 0 < v) →
      (∀ j, first + len ≤ j → j < xs.length → ¬ xs.getD j 0 < v) →
      first ≤ lower_bound xs v first len ∧
      lower_bound xs v first len ≤ first + len ∧
      (∀ j, j < lower_bound xs v first len → j < xs.length → xs.getD j 0 < v) ∧
      (∀ j, lower_bound xs v first len ≤ j → j < xs.length → ¬ xs.getD j 0 < v) := by
  intro len
  induction len using Nat.strong_induction_on with
  | _ len ih =>
    intro first hlen hlo hhi
    rw [lower_bound]
    by_cases h0 : len = 0
    · subst h0
      rw [dif_pos rfl]
      exact ⟨le_refl _, by omega, hlo, fun j hj hjl => hhi j (by omega) hjl⟩
    · rw [dif_neg h0]
      have hmid_lt : first + len / 2 < xs.length := by omega
      by_cases hlt : xs.getD (first + len / 2) 0 < v
      · rw [if_pos hlt]
        have hrec := ih (len - len / 2 - 1) (by omega) (first + len / 2 + 1)
          (by omega)
          (fun j hj hjl => lt_of_le_of_lt (hsort j (first + len / 2) (by omega) hmid_lt) hlt)
          (fun j hj hjl => hhi j (by omega) hjl)
        exact ⟨by omega, by omega, hrec.2.2.1, hrec.2.2.2⟩
      · rw [if_neg hlt]
        have hrec := ih (len / 2) (by omega) first (by omega) hlo
          (fun j hj hjl hcon =>
            hlt (lt_of_le_of_lt (hsort (first + len / 2) j (by omega) hjl) hcon))
        exact ⟨hrec.1, by omega, hrec.2.2.1, hrec.2.2.2⟩

theorem binary_search_eq_mem (xs : List Int) (v : Int)
    (hsort : List.Pairwise (· ≤ ·) xs) :
    binary_search xs v = decide (v ∈ xs) := by
  have hget := sorted_getD xs hsort
  have hspec := lower_bound_spec xs v hget xs.length 0 (by omega)
    (fun j hj _ => absurd hj (Nat.not_lt_zero j))
    (fun j hj hjl => absurd hjl (by omega))
  obtain ⟨-, hle, hbelow, habove⟩ := hspec
  unfold binary_search
  by_cases hmem : v ∈ xs
  · rw [decide_eq_true hmem]
    obtain ⟨k, hk⟩ := List.get_of_mem hmem
    have hklen : (k : Nat) < xs.length := k.isLt
    have hkval : xs.getD k 0 = v := by
      rw [List.getD_eq_getElem xs 0 hklen]
      simpa using hk
    have hrk : lower_bound xs v 0 xs.length ≤ (k : Nat) := by
      by_contra hcon
      have := hbelow (k : Nat) (by omega) hklen
      omega
    have hrlen : lower_bound xs v 0 xs.length < xs.length := by omega
    have h1 : xs.getD (lower_bound xs v 0 xs.length) 0 ≤ v := by
      calc xs.getD (lower_bound xs v 0 xs.length) 0 ≤ xs.getD (k : Nat) 0 :=
            hget _ _ hrk hklen
        _ = v := hkval
    rw [Bool.and_eq_true, decide_eq_true hrlen]
    refine ⟨rfl, ?_⟩
    simp only [Bool.not_eq_true', decide_eq_false_iff_not]
    omega
  · rw [decide_eq_false hmem]
    by_cases hrlen : lower_bound xs v 0 xs.length < xs.length
    · have h1 : ¬ xs.getD (lower_bound xs v 0 xs.length) 0 < v :=
        habove _ (le_refl _) hrlen
      have h2 : xs.getD (lower_bound xs v 0 xs.length) 0 ≠ v := by
        intro hcon
        apply hmem
        rw [← hcon, List.getD_eq_getElem xs 0 hrlen]
        exact List.getElem_mem hrlen
      simp only [Bool.and_eq_false_iff]
      right
      simp only [Bool.not_eq_false', decide_eq_true_iff]
      omega
    · simp only [Bool.and_eq_false_iff]
      left
      simpa using hrlen

/-! ### C3: EvaluateCell agrees with the spec's cell semantics -/

theorem canonical_inList_sorted (p : ColumnPredicate)
    (hpt : p.predicate_type = PredicateType.InList) (hp : Canonical p = true) :
    List.Pairwise (· ≤ ·) p.values := by
  unfold Canonical at hp
  rw [hpt] at hp
  rw [Bool.and_eq_true, decide_eq_true_eq, decide_eq_true_eq] at hp
  exact hp.2.imp (fun hab => le_of_lt hab)

/-- C3: on canonical predicates, `EvaluateCell` computes exactly the
semantics the spec describes: `false` for None/IsNull, `true` for
IsNotNull, value comparison for Equality, half-open interval for Range,
membership in the sorted list for InList, and all-filters-pass plus
optional bounds for InBloomFilter. -/
theorem evaluate_cell_spec (p : ColumnPredicate) (hp : Canonical p = true)
    (cell : Int) : EvaluateCell p cell = specMatches p cell := by
  unfold EvaluateCell specMatches
  cases hpt : p.predicate_type with
  | None => rfl
  | Equality => rfl
  | IsNotNull => rfl
  | IsNull => rfl
  | Range =>
      unfold Canonical at hp
      rw [hpt] at hp
      cases hlo : p.lower with
      | none =>
          cases hhi : p.upper with
          | none =>
              rw [hlo, hhi] at hp
              simp [Option.isSome] at hp
          | some u => simp [lowerOk, upperOk]
      | some l =>
          cases hhi : p.upper with
          | none => simp [lowerOk, upperOk]
          | some u => simp [lowerOk, upperOk, Bool.and_comm]
  | InList => exact binary_search_eq_mem _ _ (canonical_inList_sorted p hpt hp)
  | InBloomFilter =>
      unfold EvaluateCellForBloomFilter passesFilters
      cases hlo : p.lower with
      | none =>
          cases hhi : p.upper with
          | none => simp [lowerOk, upperOk]
          | some u => simp [lowerOk, upperOk]
      | some l =>
          cases hhi : p.upper with
          | none => simp [lowerOk, upperOk]
          | some u => simp [lowerOk, upperOk, Bool.and_comm]

/-! ### C1: merge is conjunction -/

theorem lowerOk_maxOptLower (a b : Option Int) (r : Int) :
    lowerOk (maxOptLower a b) r = (lowerOk a r && lowerOk b r) := by
  cases a <;> cases b <;> simp [maxOptLower, lowerOk, max_le_iff]

theorem upperOk_minOptUpper (a b : Option Int) (r : Int) :
    upperOk (minOptUpper a b) r = (upperOk a r && upperOk b r) := by
  cases a <;> cases b <;> simp [minOptUpper, upperOk, lt_min_iff]

theorem decide_mem_filter (l : List Int) (f : Int → Bool) (r : Int) :
    decide (r ∈ l.filter f) = (decide (r ∈ l) && f r) := by
  by_cases h : r ∈ l
  · cases hf : f r
    · simp [List.mem_filter, h, hf]
    · simp [List.mem_filter, h, hf]
  · simp [List.mem_filter, h]

theorem passesFilters_append (a b : List BloomFilterInner) (r : Int) :
    passesFilters (a ++ b) r = (passesFilters a r && passesFilters b r) := by
  simp [passesFilters]

theorem isSome_maxOptLower (a b : Option Int) :
    (maxOptLower a b).isSome = (a.isSome || b.isSome) := by
  cases a <;> cases b <;> rfl

theorem isSome_minOptUpper (a b : Option Int) :
    (minOptUpper a b).isSome = (a.isSome || b.isSome) := by
  cases a <;> cases b <;> rfl

theorem isEmpty_append_bfs (a b : List BloomFilterInner) :
    (a ++ b).isEmpty = (a.isEmpty && b.isEmpty) := by
  cases a <;> simp [List.isEmpty]

/-- `Simplify` preserves the cell-level semantics. -/
theorem specMatches_simplify (p : ColumnPredicate) (r : Int) :
    specMatches (Simplify p) r = specMatches p r := by
  obtain ⟨pt, lo, hi, vals, bfs⟩ := p
  cases pt with
  | Range =>
      cases lo with
      | none => rfl
      | some l =>
          cases hi with
          | none => rfl
          | some u =>
              simp only [Simplify]
              by_cases h1 : u ≤ l
              · rw [if_pos h1]
                simp only [specMatches, nonePred, lowerOk, upperOk, Bool.false_eq,
                  Bool.and_eq_false_iff]
                simp only [decide_eq_false_iff_not, not_le, not_lt]
                omega
              · rw [if_neg h1]
                by_cases h2 : u = l + 1
                · rw [if_pos h2]
                  subst h2
                  simp only [specMatches, eqPred, lowerOk, upperOk]
                  rw [show ∀ x y : Bool, (x = y) ↔ (x = true ↔ y = true) from
                    fun x y => by cases x <;> cases y <;> simp]
                  simp only [decide_eq_true_eq, Bool.and_eq_true]
                  omega
                · rw [if_neg h2]
  | InList =>
      match vals with
      | [] => simp [Simplify, specMatches, nonePred]
      | [v] =>
          simp only [Simplify, specMatches, eqPred, List.mem_singleton]
      | a :: b :: rest => rfl
  | InBloomFilter =>
      cases lo with
      | none => rfl
      | some l =>
          cases hi with
          | none => rfl
          | some u =>
              simp only [Simplify]
              by_cases h1 : u ≤ l
              · rw [if_pos h1]
                simp only [specMatches, nonePred, passesFilters, lowerOk, upperOk,
                  Bool.false_eq, Bool.and_eq_false_iff]
                right
                simp only [Bool.and_eq_false_iff, decide_eq_false_iff_not, not_le, not_lt]
                omega
              · rw [if_neg h1]
  | None => rfl
  | Equality => rfl
  | IsNotNull => rfl
  | IsNull => rfl

theorem canonical_simplify_range (lo hi : Option Int) (vals : List Int)
    (bfs : List BloomFilterInner) (h : (lo.isSome || hi.isSome) = true) :
    Canonical (Simplify
      { predicate_type := PredicateType.Range
        lower := lo, upper := hi, values := vals, bloom_filters := bfs }) = true := by
  cases lo with
  | none =>
      cases hi with
      | none => simp at h
      | some u => rfl
  | some l =>
      cases hi with
      | none => rfl
      | some u =>
          simp only [Simplify]
          by_cases h1 : u ≤ l
          · rw [if_pos h1]
            rfl
          · rw [if_neg h1]
            by_cases h2 : u = l + 1
            · rw [if_pos h2]
              rfl
            · rw [if_neg h2]
              simp only [Canonical, rangeBoundsOk, Option.isSome, Bool.true_and,
                Bool.or_true, decide_eq_true_eq]
              omega

theorem canonical_simplify_inList (vals : List Int) (lo hi : Option Int)
    (bfs : List BloomFilterInner) (h : List.Pairwise (· < ·) vals) :
    Canonical (Simplify
      { predicate_type := PredicateType.InList
        lower := lo, upper := hi, values := vals, bloom_filters := bfs }) = true := by
  match vals with
  | [] => rfl
  | [v] => rfl
  | a :: b :: rest =>
      simp only [Simplify, Canonical]
      rw [Bool.and_eq_true, decide_eq_true_eq, decide_eq_true_eq]
      exact ⟨by simp [List.length], h⟩

theorem canonical_simplify_inBloom (lo hi : Option Int) (vals : List Int)
    (bfs : List BloomFilterInner) (h : bfs.isEmpty = false) :
    Canonical (Simplify
      { predicate_type := PredicateType.InBloomFilter
        lower := lo, upper := hi, values := vals, bloom_filters := bfs }) = true := by
  cases lo with
  | none =>
      cases hi with
      | none => simp [Simplify, Canonical, rangeBoundsOk, h]
      | some u => simp [Simplify, Canonical, rangeBoundsOk, h]
  | some l =>
      cases hi with
      | none => simp [Simplify, Canonical, rangeBoundsOk, h]
      | some u =>
          simp only [Simplify]
          by_cases h1 : u ≤ l
          · rw [if_pos h1]
            rfl
          · rw [if_neg h1]
            simp only [Canonical, rangeBoundsOk, h, Bool.not_false, Bool.true_and,
              decide_eq_true_eq]
            omega

/-- A merge of canonical predicates is canonical. -/
theorem canonical_merge (p q : ColumnPredicate) (hp : Canonical p = true)
    (hq : Canonical q = true) : Canonical (Merge p q) = true := by
  obtain ⟨pt, plo, phi, pvals, pbfs⟩ := p
  obtain ⟨qt, qlo, qhi, qvals, qbfs⟩ := q
  cases pt with
  | None => rfl
  | IsNull => cases qt <;> rfl
  | IsNotNull =>
      cases qt with
      | None => rfl
      | IsNull => rfl
      | IsNotNull => exact hq
      | Equality => exact hq
      | Range =>
          simp only [Canonical] at hq
          rw [Bool.and_eq_true] at hq
          exact canonical_simplify_range _ _ _ _ hq.1
      | InList =>
          simp only [Canonical] at hq
          rw [Bool.and_eq_true, decide_eq_true_eq, decide_eq_true_eq] at hq
          exact canonical_simplify_inList _ _ _ _ hq.2
      | InBloomFilter =>
          simp only [Canonical] at hq
          rw [Bool.and_eq_true, Bool.not_eq_true'] at hq
          exact canonical_simplify_inBloom _ _ _ _ hq.1
  | Equality =>
      cases qt with
      | None => rfl
      | IsNull => rfl
      | IsNotNull => exact hp
      | Equality =>
          simp only [Merge, MergeRaw]
          split
          · exact hp
          · rfl
      | Range =>
          simp only [Merge, MergeRaw]
          split
          · exact hp
          · rfl
      | InList =>
          simp only [Merge, MergeRaw]
          split
          · exact hp
          · rfl
      | InBloomFilter =>
          simp only [Merge, MergeRaw]
          split
          · exact hp
          · rfl
  | Range =>
      have hp' : ((plo.isSome || phi.isSome) = true) ∧ rangeBoundsOk plo phi = true := by
        simp only [Canonical] at hp
        rw [Bool.and_eq_true] at hp
        exact hp
      cases qt with
      | None => rfl
      | IsNull => rfl
      | IsNotNull => exact canonical_simplify_range _ _ _ _ hp'.1
      | Equality =>
          simp only [Merge, MergeRaw]
          split
          · exact hq
          · rfl
      | Range =>
          have hq' : ((qlo.isSome || qhi.isSome) = true) ∧ rangeBoundsOk qlo qhi = true := by
            simp only [Canonical] at hq
            rw [Bool.and_eq_true] at hq
            exact hq
          apply canonical_simplify_range
          rw [isSome_maxOptLower]
          rcases Bool.or_eq_true_iff.mp hp'.1 with h | h
          · rw [h]
            rfl
          · rw [isSome_minOptUpper, h]
            simp
      | InList =>
          have hq' : List.Pairwise (· < ·) qvals := by
            simp only [Canonical] at hq
            rw [Bool.and_eq_true, decide_eq_true_eq, decide_eq_true_eq] at hq
            exact hq.2
          exact canonical_simplify_inList _ _ _ _ (hq'.filter _)
      | InBloomFilter =>
          have hq' : qbfs.isEmpty = false := by
            simp only [Canonical] at hq
            rw [Bool.and_eq_true, Bool.not_eq_true'] at hq
            exact hq.1
          exact canonical_simplify_inBloom _ _ _ _ hq'
  | InList =>
      have hp' : List.Pairwise (· < ·) pvals := by
        simp only [Canonical] at hp
        rw [Bool.and_eq_true, decide_eq_true_eq, decide_eq_true_eq] at hp
        exact hp.2
      cases qt with
      | None => rfl
      | IsNull => rfl
      | IsNotNull => exact canonical_simplify_inList _ _ _ _ hp'
      | Equality =>
          simp only [Merge, MergeRaw]
          split
          · exact hq
          · rfl
      | Range => exact canonical_simplify_inList _ _ _ _ (hp'.filter _)
      | InList => exact canonical_simplify_inList _ _ _ _ (hp'.filter _)
      | InBloomFilter => exact canonical_simplify_inList _ _ _ _ (hp'.filter _)
  | InBloomFilter =>
      have hp' : pbfs.isEmpty = false := by
        simp only [Canonical] at hp
        rw [Bool.and_eq_true, Bool.not_eq_true'] at hp
        exact hp.1
      cases qt with
      | None => rfl
      | IsNull => rfl
      | IsNotNull => exact canonical_simplify_inBloom _ _ _ _ hp'
      | Equality =>
          simp only [Merge, MergeRaw]
          split
          · exact hq
          · rfl
      | Range => exact canonical_simplify_inBloom _ _ _ _ hp'
      | InList =>
          have hq' : List.Pairwise (· < ·) qvals := by
            simp only [Canonical] at hq
            rw [Bool.and_eq_true, decide_eq_true_eq, decide_eq_true_eq] at hq
            exact hq.2
          exact canonical_simplify_inList _ _ _ _ (hq'.filter _)
      | InBloomFilter =>
          apply canonical_simplify_inBloom
          rw [isEmpty_append_bfs, hp']
          rfl

theorem eq_and_right (v r : Int) (b : Int → Bool) (h : b v = true) :
    decide (r = v) = (decide (r = v) && b r) := by
  by_cases hrv : r = v
  · subst hrv
    simp [h]
  · simp [hrv]

theorem eq_and_right_neg (v r : Int) (b : Int → Bool) (h : b v = false) :
    (false : Bool) = (decide (r = v) && b r) := by
  by_cases hrv : r = v
  · subst hrv
    simp [h]
  · simp [hrv]

theorem eq_and_left (v r : Int) (b : Int → Bool) (h : b v = true) :
    decide (r = v) = (b r && decide (r = v)) := by
  rw [Bool.and_comm]
  exact eq_and_right v r b h

theorem eq_and_left_neg (v r : Int) (b : Int → Bool) (h : b v = false) :
    (false : Bool) = (b r && decide (r = v)) := by
  rw [Bool.and_comm]
  exact eq_and_right_neg v r b h

/-- The merged predicate matches a cell exactly when both inputs do. -/
theorem specMatches_merge (p q : ColumnPredicate) (hp : Canonical p = true)
    (hq : Canonical q = true) (r : Int) :
    specMatches (Merge p q) r = (specMatches p r && specMatches q r) := by
  obtain ⟨pt, plo, phi, pvals, pbfs⟩ := p
  obtain ⟨qt, qlo, qhi, qvals, qbfs⟩ := q
  cases pt with
  | None => rfl
  | IsNull => cases qt <;> rfl
  | IsNotNull =>
      cases qt with
      | None => rfl
      | IsNull => rfl
      | IsNotNull => rfl
      | Equality =>
          rw [Merge, specMatches_simplify]
          simp [MergeRaw, specMatches]
      | Range =>
          rw [Merge, specMatches_simplify]
          simp [MergeRaw, specMatches]
      | InList =>
          rw [Merge, specMatches_simplify]
          simp [MergeRaw, specMatches]
      | InBloomFilter =>
          rw [Merge, specMatches_simplify]
          simp [MergeRaw, specMatches]
  | Equality =>
      obtain ⟨v, hv⟩ : ∃ v, plo = some v := by
        simp only [Canonical] at hp
        rw [Bool.and_eq_true] at hp
        exact Option.isSome_iff_exists.mp hp.1
      subst hv
      cases qt with
      | None => simp [Merge, MergeRaw, Simplify, specMatches, nonePred]
      | IsNull => simp [Merge, MergeRaw, Simplify, specMatches, nonePred]
      | IsNotNull =>
          rw [Merge, specMatches_simplify]
          simp [MergeRaw, specMatches]
      | Equality =>
          obtain ⟨w, hw⟩ : ∃ w, qlo = some w := by
            simp only [Canonical] at hq
            rw [Bool.and_eq_true] at hq
            exact Option.isSome_iff_exists.mp hq.1
          subst hw
          rw [Merge, specMatches_simplify]
          simp only [MergeRaw]
          by_cases hvw : v = w
          · subst hvw
            rw [if_pos rfl]
            simp [specMatches]
          · rw [if_neg (by simpa using hvw)]
            simp only [specMatches, nonePred]
            by_cases hrv : r = v
            · subst hrv
              simp [hvw]
            · simp [hrv]
      | Range =>
          rw [Merge, specMatches_simplify]
          simp only [MergeRaw, Option.getD_some]
          by_cases hin : inRangeBounds qlo qhi v = true
          · rw [if_pos hin]
            simp only [specMatches]
            exact eq_and_right v r (fun x => inRangeBounds qlo qhi x) hin
          · rw [if_neg hin]
            simp only [specMatches, nonePred]
            exact eq_and_right_neg v r (fun x => inRangeBounds qlo qhi x)
              (Bool.eq_false_iff.mpr hin)
      | InList =>
          rw [Merge, specMatches_simplify]
          simp only [MergeRaw, Option.getD_some]
          by_cases hin : decide (v ∈ qvals) = true
          · rw [if_pos hin]
            simp only [specMatches]
            exact eq_and_right v r (fun x => decide (x ∈ qvals)) hin
          · rw [if_neg hin]
            simp only [specMatches, nonePred]
            exact eq_and_right_neg v r (fun x => decide (x ∈ qvals))
              (Bool.eq_false_iff.mpr hin)
      | InBloomFilter =>
          rw [Merge, specMatches_simplify]
          simp only [MergeRaw, Option.getD_some]
          by_cases hin : bloomAndBoundsOk
              { predicate_type := PredicateType.InBloomFilter
                lower := qlo, upper := qhi, values := qvals, bloom_filters := qbfs } v = true
          · rw [if_pos hin]
            simp only [specMatches]
            exact eq_and_right v r (fun x => bloomAndBoundsOk
              { predicate_type := PredicateType.InBloomFilter
                lower := qlo, upper := qhi, values := qvals, bloom_filters := qbfs } x) hin
          · rw [if_neg hin]
            simp only [specMatches, nonePred]
            exact eq_and_right_neg v r (fun x => bloomAndBoundsOk
              { predicate_type := PredicateType.InBloomFilter
                lower := qlo, upper := qhi, values := qvals, bloom_filters := qbfs } x)
              (Bool.eq_false_iff.mpr hin)
  | Range =>
      cases qt with
      | None => simp [Merge, MergeRaw, Simplify, specMatches, nonePred]
      | IsNull => simp [Merge, MergeRaw, Simplify, specMatches, nonePred]
      | IsNotNull =>
          rw [Merge, specMatches_simplify]
          simp [MergeRaw, specMatches]
      | Equality =>
          obtain ⟨w, hw⟩ : ∃ w, qlo = some w := by
            simp only [Canonical] at hq
            rw [Bool.and_eq_true] at hq
            exact Option.isSome_iff_exists.mp hq.1
          subst hw
          rw [Merge, specMatches_simplify]
          simp only [MergeRaw, Option.getD_some]
          by_cases hin : inRangeBounds plo phi w = true
          · rw [if_pos hin]
            simp only [specMatches]
            exact eq_and_left w r (fun x => inRangeBounds plo phi x) hin
          · rw [if_neg hin]
            simp only [specMatches, nonePred]
            exact eq_and_left_neg w r (fun x => inRangeBounds plo phi x)
              (Bool.eq_false_iff.mpr hin)
      | Range =>
          rw [Merge, specMatches_simplify]
          simp only [MergeRaw, specMatches]
          rw [lowerOk_maxOptLower, upperOk_minOptUpper]
          cases lowerOk plo r <;> cases lowerOk qlo r <;>
            cases upperOk phi r <;> cases upperOk qhi r <;> rfl
      | InList =>
          rw [Merge, specMatches_simplify]
          simp only [MergeRaw, specMatches]
          rw [decide_mem_filter]
          simp only [inRangeBounds]
          cases decide (r ∈ qvals) <;> cases lowerOk plo r <;> cases upperOk phi r <;> rfl
      | InBloomFilter =>
          rw [Merge, specMatches_simplify]
          simp only [MergeRaw, specMatches]
          rw [lowerOk_maxOptLower, upperOk_minOptUpper]
          cases passesFilters qbfs r <;> cases lowerOk plo r <;> cases lowerOk qlo r <;>
            cases upperOk phi r <;> cases upperOk qhi r <;> rfl
  | InList =>
      cases qt with
      | None => simp [Merge, MergeRaw, Simplify, specMatches, nonePred]
      | IsNull => simp [Merge, MergeRaw, Simplify, specMatches, nonePred]
      | IsNotNull =>
          rw [Merge, specMatches_simplify]
          simp [MergeRaw, specMatches]
      | Equality =>
          obtain ⟨w, hw⟩ : ∃ w, qlo = some w := by
            simp only [Canonical] at hq
            rw [Bool.and_eq_true] at hq
            exact Option.isSome_iff_exists.mp hq.1
          subst hw
          rw [Merge, specMatches_simplify]
          simp only [MergeRaw, Option.getD_some]
          by_cases hin : decide (w ∈ pvals) = true
          · rw [if_pos hin]
            simp only [specMatches]
            exact eq_and_left w r (fun x => decide (x ∈ pvals)) hin
          · rw [if_neg hin]
            simp only [specMatches, nonePred]
            exact eq_and_left_neg w r (fun x => decide (x ∈ pvals))
              (Bool.eq_false_iff.mpr hin)
      | Range =>
          rw [Merge, specMatches_simplify]
          simp only [MergeRaw, specMatches]
          rw [decide_mem_filter]
          simp only [inRangeBounds]
      | InList =>
          rw [Merge, specMatches_simplify]
          simp only [MergeRaw, specMatches]
          rw [decide_mem_filter]
      | InBloomFilter =>
          rw [Merge, specMatches_simplify]
          simp only [MergeRaw, specMatches]
          rw [decide_mem_filter]
          simp only [bloomAndBoundsOk]
  | InBloomFilter =>
      cases qt with
      | None => simp [Merge, MergeRaw, Simplify, specMatches, nonePred]
      | IsNull => simp [Merge, MergeRaw, Simplify, specMatches, nonePred]
      | IsNotNull =>
          rw [Merge, specMatches_simplify]
          simp [MergeRaw, specMatches]
      | Equality =>
          obtain ⟨w, hw⟩ : ∃ w, qlo = some w := by
            simp only [Canonical] at hq
            rw [Bool.and_eq_true] at hq
            exact Option.isSome_iff_exists.mp hq.1
          subst hw
          rw [Merge, specMatches_simplify]
          simp only [MergeRaw, Option.getD_some]
          by_cases hin : bloomAndBoundsOk
              { predicate_type := PredicateType.InBloomFilter
                lower := plo, upper := phi, values := pvals, bloom_filters := pbfs } w = true
          · rw [if_pos hin]
            simp only [specMatches]
            exact eq_and_left w r (fun x => bloomAndBoundsOk
              { predicate_type := PredicateType.InBloomFilter
                lower := plo, upper := phi, values := pvals, bloom_filters := pbfs } x) hin
          · rw [if_neg hin]
            simp only [specMatches, nonePred]
            exact eq_and_left_neg w r (fun x => bloomAndBoundsOk
              { predicate_type := PredicateType.InBloomFilter
                lower := plo, upper := phi, values := pvals, bloom_filters := pbfs } x)
              (Bool.eq_false_iff.mpr hin)
      | Range =>
          rw [Merge, specMatches_simplify]
          simp only [MergeRaw, specMatches]
          rw [lowerOk_maxOptLower, upperOk_minOptUpper]
          cases passesFilters pbfs r <;> cases lowerOk plo r <;> cases lowerOk qlo r <;>
            cases upperOk phi r <;> cases upperOk qhi r <;> rfl
      | InList =>
          rw [Merge, specMatches_simplify]
          simp only [MergeRaw, specMatches]
          rw [decide_mem_filter]
          simp only [bloomAndBoundsOk]
          cases decide (r ∈ qvals) <;> cases passesFilters pbfs r <;>
            cases lowerOk plo r <;> cases upperOk phi r <;> rfl
      | InBloomFilter =>
          rw [Merge, specMatches_simplify]
          simp only [MergeRaw, specMatches]
          rw [lowerOk_maxOptLower, upperOk_minOptUpper, passesFilters_append]
          cases passesFilters pbfs r <;> cases passesFilters qbfs r <;>
            cases lowerOk plo r <;> cases lowerOk qlo r <;>
            cases upperOk phi r <;> cases upperOk qhi r <;> rfl

/-- C1: for canonical predicates over the same column, after `p.Merge(q)`
the merged predicate matches a cell exactly when both originals do (merge is
logical AND). -/
theorem merge_is_conjunction (p q : ColumnPredicate) (hp : Canonical p = true)
    (hq : Canonical q = true) (r : Int) :
    EvaluateCell (Merge p q) r = (EvaluateCell p r && EvaluateCell q r) := by
  rw [evaluate_cell_spec p hp, evaluate_cell_spec q hq,
    evaluate_cell_spec (Merge p q) (canonical_merge p q hp hq),
    specMatches_merge p q hp hq]

theorem merge_is_conjunction_witness :
    Canonical
        { predicate_type := PredicateType.Range
          lower := some 10, upper := some 20, values := [], bloom_filters := [] } = true ∧
      Canonical
        { predicate_type := PredicateType.Range
          lower := some 15, upper := some 25, values := [], bloom_filters := [] } = true ∧
      EvaluateCell
          (Merge
            { predicate_type := PredicateType.Range
              lower := some 10, upper := some 20, values := [], bloom_filters := [] }
            { predicate_type := PredicateType.Range
              lower := some 15, upper := some 25, values := [], bloom_filters := [] }) 16 =
        (EvaluateCell
            { predicate_type := PredicateType.Range
              lower := some 10, upper := some 20, values := [], bloom_filters := [] } 16 &&
          EvaluateCell
            { predicate_type := PredicateType.Range
              lower := some 15, upper := some 25, values := [], bloom_filters := [] } 16) :=
  ⟨by decide, by decide, merge_is_conjunction _ _ (by decide) (by decide) 16⟩

theorem evaluate_cell_spec_witness :
    Canonical
        { predicate_type := PredicateType.Range
          lower := some 10, upper := some 20, values := [], bloom_filters := [] } = true ∧
      EvaluateCell
          { predicate_type := PredicateType.Range
            lower := some 10, upper := some 20, values := [], bloom_filters := [] } 15 =
        specMatches
          { predicate_type := PredicateType.Range
            lower := some 10, upper := some 20, values := [], bloom_filters := [] } 15 :=
  ⟨by decide, evaluate_cell_spec _ (by decide) 15⟩

/-! ## Block cache (spec §4.3)

Modelled from the spec: the cache implementation (`cache.h`/`cache.cc`) is
not among the given sources — only its test, `src/kudu/util/cache-test.cc`.
The model below is a single shard (the tests force
`cache_force_single_shard` for the capacity/eviction scenarios; a sharded
cache is `S` independent copies keyed by `hash(key) mod S`).  Keys and
values are the 4-byte integers the tests use; every entry registers the
test's recording eviction callback, modelled as the `fired` log of
`(key, value)` pairs in callback order.

* `recency` holds the in-cache entries in policy order: head = next
  eviction candidate, tail = most recent insertion (FIFO) / most recently
  used (LRU).
* `zombies` holds entries that were erased, superseded or evicted while
  still pinned (`refs` counts live user handles); they are freed — firing
  the callback — when the last handle is released.
* `next_id` numbers entries so a handle identifies one entry instance even
  across re-inserts of the same key. -/

structure Entry where
  eid : Nat
  key : Nat
  value : Nat
  charge : Nat
  refs : Nat
deriving DecidableEq

inductive EvictionPolicy
  | FIFO
  | LRU
deriving DecidableEq

structure Shard where
  policy : EvictionPolicy
  capacity : Nat
  recency : List Entry
  zombies : List Entry
  fired : List (Nat × Nat)
  next_id : Nat
deriving DecidableEq

/-- Total charge of the in-cache entries (the shard's usage counter). -/
def usage (s : Shard) : Nat := (s.recency.map Entry.charge).sum

/-- Remove the first entry with key `k`, keeping the order of the rest. -/
def removeFirstKey (k : Nat) : List Entry → Option Entry × List Entry
  | [] => (none, [])
  | e :: t =>
      if e.key = k then (some e, t)
      else
        let r := removeFirstKey k t
        (r.1, e :: r.2)

/-- Pin (increment the handle count of) the first entry with key `k`. -/
def bumpFirst (k : Nat) : List Entry → List Entry
  | [] => []
  | e :: t =>
      if e.key = k then { e with refs := e.refs + 1 } :: t
      else e :: bumpFirst k t

/-- `lookup(key)`: on a hit, pin the entry and return its value; FIFO
leaves the recency order untouched, LRU moves the entry to the MRU end. -/
def Lookup (s : Shard) (k : Nat) : Option Nat × Shard :=
  match s.recency.find? fun e => e.key = k with
  | none => (none, s)
  | some e =>
      match s.policy with
      | EvictionPolicy.FIFO => (some e.value, { s with recency := bumpFirst k s.recency })
      | EvictionPolicy.LRU =>
          let r := removeFirstKey k s.recency
          match r.1 with
          | some e2 =>
              (some e2.value,
                { s with recency := r.2 ++ [{ e2 with refs := e2.refs + 1 }] })
          | none => (some e.value, s)

/-- Take an entry out of the cache: if it is unpinned its eviction callback
fires and it is freed, otherwise it lingers as a zombie until the last
handle drops. -/
def retire (e : Entry) (zombies : List Entry) (fired : List (Nat × Nat)) :
    List Entry × List (Nat × Nat) :=
  if e.refs = 0 then (zombies, fired ++ [(e.key, e.value)])
  else (zombies ++ [e], fired)

/-- `erase(key)`: remove the entry from the cache if present; a second
erase of the same key (or an erase of an absent key) finds nothing and is a
no-op. -/
def Erase (s : Shard) (k : Nat) : Shard :=
  match removeFirstKey k s.recency with
  | (none, _) => s
  | (some e, rest) =>
      let zf := retire e s.zombies s.fired
      { s with recency := rest, zombies := zf.1, fired := zf.2 }

/-- Remove the head-most unpinned entry (eviction skips pinned entries). -/
def removeFirstUnpinned : List Entry → Option (Entry × List Entry)
  | [] => none
  | e :: t =>
      if e.refs = 0 then some (e, t)
      else
        match removeFirstUnpinned t with
        | none => none
        | some r => some (r.1, e :: r.2)

/-- The eviction loop: while the shard is over capacity, evict the
head-most unpinned entry (spec §4.3.3: eviction skips pinned entries; if
everything is pinned the insert succeeds over capacity).  Each iteration
removes an entry, so `recency.length` steps of fuel make the structural
recursion equivalent to the `while` loop. -/
def evictLoopFuel : Nat → Shard → Shard
  | 0, s => s
  | fuel + 1, s =>
      if s.capacity < usage s then
        match removeFirstUnpinned s.recency with
        | none => s
        | some r =>
            evictLoopFuel fuel
              { s with recency := r.2, fired := s.fired ++ [(r.1.key, r.1.value)] }
      else s

def evictLoop (s : Shard) : Shard := evictLoopFuel s.recency.length s

/-- `insert` (allocate + publish): supersede any prior entry with the same
key (it is retired: freed now if unpinned, zombie otherwise), append the
new entry — pinned by the returned handle — at the recency tail, then evict
under capacity pressure.  Returns the handle id. -/
def Insert (s : Shard) (k v c : Nat) : Nat × Shard :=
  let newE : Entry := { eid := s.next_id, key := k, value := v, charge := c, refs := 1 }
  let r := removeFirstKey k s.recency
  let zf :=
    match r.1 with
    | none => (s.zombies, s.fired)
    | some e => retire e s.zombies s.fired
  (s.next_id,
    evictLoop
      { s with recency := r.2 ++ [newE], zombies := zf.1, fired := zf.2,
               next_id := s.next_id + 1 })

/-- Release one handle on entry `eid`: unpin it if it is still in the
cache; for a zombie, dropping the last handle fires the eviction callback
with the entry's original key and value and frees it. -/
def Release (s : Shard) (eid : Nat) : Shard :=
  if s.recency.any fun e => e.eid = eid then
    { s with recency := s.recency.map fun e =>
        if e.eid = eid then { e with refs := e.refs - 1 } else e }
  else
    match s.zombies.find? fun e => e.eid = eid with
    | none => s
    | some e =>
        if e.refs ≤ 1 then
          { s with zombies := s.zombies.filter fun z => z.eid ≠ eid
                   fired := s.fired ++ [(e.key, e.value)] }
        else
          { s with zombies := s.zombies.map fun z =>
              if z.eid = eid then { z with refs := z.refs - 1 } else z }

/-- The test-level `Insert` helper: publish and immediately drop the
returned handle (cache-test.cc lines 87–94). -/
def InsertRelease (s : Shard) (k v c : Nat) : Shard :=
  let r := Insert s k v c
  Release r.2 r.1

/-- `Cache::InvalidationControl` (spec §4.3.4). -/
structure InvalidationControl where
  validity_fn : Nat → Nat → Bool
  iteration_fn : Nat → Nat → Bool

/-- The defaults: every entry is invalid, always advance. -/
def defaultInvalidationControl : InvalidationControl :=
  { validity_fn := fun _ _ => false, iteration_fn := fun _ _ => true }

/-- The invalidation walk over one shard's entries in policy order.  At
each entry the iteration functor is consulted first (with the running
valid/invalid counts) — returning `false` stops the walk — then the entry
is kept or erased according to the validity functor.  Returns
`(kept-in-order including unvisited, erased-in-order)`. -/
def invalidateWalk (ctl : InvalidationControl) :
    List Entry → Nat → Nat → List Entry × List Entry
  | [], _, _ => ([], [])
  | e :: t, valid, invalid =>
      if ctl.iteration_fn valid invalid then
        if ctl.validity_fn e.key e.value then
          let r := invalidateWalk ctl t (valid + 1) invalid
          (e :: r.1, r.2)
        else
          let r := invalidateWalk ctl t valid (invalid + 1)
          (r.1, e :: r.2)
      else (e :: t, [])

/-- Retire every erased entry, in walk order. -/
def retireAll (erased : List Entry) (zombies : List Entry)
    (fired : List (Nat × Nat)) : List Entry × List (Nat × Nat) :=
  match erased with
  | [] => (zombies, fired)
  | e :: t =>
      let zf := retire e zombies fired
      retireAll t zf.1 zf.2

/-- `invalidate(ctl)`: walk the shard, erase the entries the validity
functor rejects, and return how many were invalidated. -/
def Invalidate (s : Shard) (ctl : InvalidationControl) : Nat × Shard :=
  let r := invalidateWalk ctl s.recency 0 0
  let zf := retireAll r.2 s.zombies s.fired
  (r.2.length, { s with recency := r.1, zombies := zf.1, fired := zf.2 })

def keepFn (ctl : InvalidationControl) (e : Entry) : Bool :=
  ctl.validity_fn e.key e.value

def validCount (ctl : InvalidationControl) (l : List Entry) : Nat :=
  (l.filter (keepFn ctl)).length

def invalidCount (ctl : InvalidationControl) (l : List Entry) : Nat :=
  (l.filter fun e => !keepFn ctl e).length

/-! ### Cache lemmas -/

theorem removeFirstKey_of_absent (k : Nat) (l : List Entry)
    (h : ∀ e ∈ l, e.key ≠ k) : removeFirstKey k l = (none, l) := by
  induction l with
  | nil => rfl
  | cons e t ih =>
      unfold removeFirstKey
      rw [if_neg (h e (List.mem_cons_self e t))]
      rw [ih fun x hx => h x (List.mem_cons_of_mem e hx)]

/-- C10: erasing a key that is not present (in particular a second erase of
an already-erased key) is a no-op: same state, no eviction callback, and
every lookup answers as before. -/
theorem erase_absent_noop (s : Shard) (k : Nat)
    (h : ∀ e ∈ s.recency, e.key ≠ k) :
    Erase s k = s ∧ (Erase s k).fired = s.fired ∧
      ∀ j, (Lookup (Erase s k) j).1 = (Lookup s j).1 := by
  have h2 : Erase s k = s := by
    unfold Erase
    rw [removeFirstKey_of_absent k s.recency h]
  exact ⟨h2, by rw [h2], fun j => by rw [h2]⟩

theorem erase_absent_noop_witness :
    (∀ e ∈ ({ policy := EvictionPolicy.FIFO, capacity := 10
              recency := [{ eid := 0, key := 1, value := 7, charge := 1, refs := 0 }]
              zombies := [], fired := [], next_id := 1 } : Shard).recency, e.key ≠ 5) ∧
      Erase
          { policy := EvictionPolicy.FIFO, capacity := 10
            recency := [{ eid := 0, key := 1, value := 7, charge := 1, refs := 0 }]
            zombies := [], fired := [], next_id := 1 } 5 =
        { policy := EvictionPolicy.FIFO, capacity := 10
          recency := [{ eid := 0, key := 1, value := 7, charge := 1, refs := 0 }]
          zombies := [], fired := [], next_id := 1 } :=
  ⟨by decide, (erase_absent_noop _ 5 (by decide)).1⟩

theorem invalidateWalk_spec (ctl : InvalidationControl) (l : List Entry) :
    ∀ valid invalid, ∃ n, n ≤ l.length ∧
      invalidateWalk ctl l valid invalid =
        ((l.take n).filter (keepFn ctl) ++ l.drop n,
          (l.take n).filter fun e => !keepFn ctl e) ∧
      (∀ m, m < n → ctl.iteration_fn (valid + validCount ctl (l.take m))
          (invalid + invalidCount ctl (l.take m)) = true) ∧
      (n < l.length → ctl.iteration_fn (valid + validCount ctl (l.take n))
          (invalid + invalidCount ctl (l.take n)) = false) := by
  induction l with
  | nil =>
      intro valid invalid
      exact ⟨0, Nat.le_refl 0, rfl, fun m hm => absurd hm (by omega),
        fun hc => absurd hc (by simp)⟩
  | cons e t ih =>
      intro valid invalid
      by_cases hiter : ctl.iteration_fn valid invalid = true
      · by_cases hval : ctl.validity_fn e.key e.value = true
        · obtain ⟨n, hn, heq, hall, hstop⟩ := ih (valid + 1) invalid
          refine ⟨n + 1, by simp only [List.length_cons]; omega, ?_, ?_, ?_⟩
          · show invalidateWalk ctl (e :: t) valid invalid = _
            unfold invalidateWalk
            rw [if_pos hiter, if_pos hval]
            rw [heq]
            simp only [List.take_succ_cons, List.drop_succ_cons, List.filter_cons,
              keepFn, hval, Bool.not_true, if_true]
            rfl
          · intro m hm
            cases m with
            | zero =>
                simpa [validCount, invalidCount] using hiter
            | succ m' =>
                have hv : validCount ctl (e :: t.take m') = validCount ctl (t.take m') + 1 := by
                  simp [validCount, List.filter_cons, keepFn, hval]
                have hi : invalidCount ctl (e :: t.take m') = invalidCount ctl (t.take m') := by
                  simp [invalidCount, List.filter_cons, keepFn, hval]
                rw [List.take_succ_cons, hv, hi,
                  show valid + (validCount ctl (t.take m') + 1) =
                    valid + 1 + validCount ctl (t.take m') from by omega]
                exact hall m' (by omega)
          · intro hlt
            have hlt' : n < t.length := by
              simp only [List.length_cons] at hlt
              omega
            have hv : validCount ctl (e :: t.take n) = validCount ctl (t.take n) + 1 := by
              simp [validCount, List.filter_cons, keepFn, hval]
            have hi : invalidCount ctl (e :: t.take n) = invalidCount ctl (t.take n) := by
              simp [invalidCount, List.filter_cons, keepFn, hval]
            rw [List.take_succ_cons, hv, hi,
              show valid + (validCount ctl (t.take n) + 1) =
                valid + 1 + validCount ctl (t.take n) from by omega]
            exact hstop hlt'
        · have hval' : ctl.validity_fn e.key e.value = false := Bool.eq_false_iff.mpr hval
          obtain ⟨n, hn, heq, hall, hstop⟩ := ih valid (invalid + 1)
          refine ⟨n + 1, by simp only [List.length_cons]; omega, ?_, ?_, ?_⟩
          · show invalidateWalk ctl (e :: t) valid invalid = _
            unfold invalidateWalk
            rw [if_pos hiter, if_neg (by simp [hval']), heq]
            simp only [List.take_succ_cons, List.drop_succ_cons, List.filter_cons,
              keepFn, hval', Bool.not_false, if_false]
            rfl
          · intro m hm
            cases m with
            | zero =>
                simpa [validCount, invalidCount] using hiter
            | succ m' =>
                have hv : validCount ctl (e :: t.take m') = validCount ctl (t.take m') := by
                  simp [validCount, List.filter_cons, keepFn, hval']
                have hi : invalidCount ctl (e :: t.take m') =
                    invalidCount ctl (t.take m') + 1 := by
                  simp [invalidCount, List.filter_cons, keepFn, hval']
                rw [List.take_succ_cons, hv, hi,
                  show invalid + (invalidCount ctl (t.take m') + 1) =
                    invalid + 1 + invalidCount ctl (t.take m') from by omega]
                exact hall m' (by omega)
          · intro hlt
            have hlt' : n < t.length := by
              simp only [List.length_cons] at hlt
              omega
            have hv : validCount ctl (e :: t.take n) = validCount ctl (t.take n) := by
              simp [validCount, List.filter_cons, keepFn, hval']
            have hi : invalidCount ctl (e :: t.take n) =
                invalidCount ctl (t.take n) + 1 := by
              simp [invalidCount, List.filter_cons, keepFn, hval']
            rw [List.take_succ_cons, hv, hi,
              show invalid + (invalidCount ctl (t.take n) + 1) =
                invalid + 1 + invalidCount ctl (t.take n) from by omega]
            exact hstop hlt'
      · have hiter' : ctl.iteration_fn valid invalid = false := Bool.eq_false_iff.mpr hiter
        refine ⟨0, by omega, ?_, fun m hm => absurd hm (by omega), fun _ => ?_⟩
        · show invalidateWalk ctl (e :: t) valid invalid = (e :: t, [])
          unfold invalidateWalk
          rw [if_neg (by simp [hiter'])]
        · simpa [validCount, invalidCount] using hiter'

theorem retireAll_spec (erased : List Entry) :
    ∀ z f, retireAll erased z f =
      (z ++ erased.filter fun e => !decide (e.refs = 0),
        f ++ (erased.filter fun e => decide (e.refs = 0)).map fun e =>
          (e.key, e.value)) := by
  induction erased with
  | nil =>
      intro z f
      simp [retireAll]
  | cons e t ih =>
      intro z f
      by_cases h : e.refs = 0
      · simp [retireAll, retire, h, ih, List.filter_cons]
      · simp [retireAll, retire, h, ih, List.filter_cons]

/-- C6: `invalidate` visits a prefix of the shard's entries in policy
order; it erases (retiring each per its pin count) and counts exactly the
visited entries that the validity functor rejects, returning that count;
the iteration functor is consulted with the running valid/invalid counts
before each entry is processed, and a `false` answer stops the walk; with
the default control (all entries invalid, always advance) every entry is
invalidated. -/
theorem invalidate_spec (s : Shard) (ctl : InvalidationControl) :
    ∃ n, n ≤ s.recency.length ∧
      (Invalidate s ctl).1 = invalidCount ctl (s.recency.take n) ∧
      (Invalidate s ctl).2.recency =
        (s.recency.take n).filter (keepFn ctl) ++ s.recency.drop n ∧
      (Invalidate s ctl).2.zombies =
        s.zombies ++ ((s.recency.take n).filter fun e => !keepFn ctl e).filter
          (fun e => !decide (e.refs = 0)) ∧
      (Invalidate s ctl).2.fired =
        s.fired ++ (((s.recency.take n).filter fun e => !keepFn ctl e).filter
          fun e => decide (e.refs = 0)).map (fun e => (e.key, e.value)) ∧
      (∀ m, m < n → ctl.iteration_fn (validCount ctl (s.recency.take m))
          (invalidCount ctl (s.recency.take m)) = true) ∧
      (n < s.recency.length → ctl.iteration_fn (validCount ctl (s.recency.take n))
          (invalidCount ctl (s.recency.take n)) = false) ∧
      ((∀ a b, ctl.validity_fn a b = false) → (∀ a b, ctl.iteration_fn a b = true) →
        (Invalidate s ctl).1 = s.recency.length) := by
  obtain ⟨n, hn, heq, hall, hstop⟩ := invalidateWalk_spec ctl s.recency 0 0
  have hinv : Invalidate s ctl =
      (invalidCount ctl (s.recency.take n),
        { s with
          recency := (s.recency.take n).filter (keepFn ctl) ++ s.recency.drop n
          zombies := s.zombies ++
            ((s.recency.take n).filter fun e => !keepFn ctl e).filter
              (fun e => !decide (e.refs = 0))
          fired := s.fired ++
            (((s.recency.take n).filter fun e => !keepFn ctl e).filter
              fun e => decide (e.refs = 0)).map (fun e => (e.key, e.value)) }) := by
    unfold Invalidate
    rw [heq]
    simp only [retireAll_spec]
    rfl
  refine ⟨n, hn, by rw [hinv], by rw [hinv], by rw [hinv], by rw [hinv],
    ?_, ?_, ?_⟩
  · intro m hm
    have := hall m hm
    simpa using this
  · intro hlt
    have := hstop hlt
    simpa using this
  · intro hv hi
    have hnl : n = s.recency.length := by
      by_contra hne
      have hfalse := hstop (by omega)
      rw [hi] at hfalse
      exact absurd hfalse (by simp)
    rw [hinv]
    subst hnl
    show invalidCount ctl (s.recency.take s.recency.length) = s.recency.length
    rw [List.take_length]
    unfold invalidCount
    rw [List.filter_eq_self.mpr fun x _ => by simp [keepFn, hv]]

/-- An entry with its pin count forgotten: lookup changes nothing else. -/
def stripRefs (e : Entry) : Entry := { e with refs := 0 }

theorem bumpFirst_map_stripRefs (k : Nat) (l : List Entry) :
    (bumpFirst k l).map stripRefs = l.map stripRefs := by
  induction l with
  | nil => rfl
  | cons e t ih =>
      unfold bumpFirst
      by_cases h : e.key = k
      · rw [if_pos h]
        simp [stripRefs]
      · rw [if_neg h]
        simp [ih]

theorem bumpFirst_charges (k : Nat) (l : List Entry) :
    ((bumpFirst k l).map Entry.charge).sum = (l.map Entry.charge).sum := by
  induction l with
  | nil => rfl
  | cons e t ih =>
      unfold bumpFirst
      by_cases h : e.key = k
      · rw [if_pos h]
        simp
      · rw [if_neg h]
        simp [ih]

theorem removeFirstUnpinned_decomp (pre : List Entry) (e : Entry) (post : List Entry)
    (hpre : ∀ x ∈ pre, x.refs ≠ 0) (he : e.refs = 0) :
    removeFirstUnpinned (pre ++ e :: post) = some (e, pre ++ post) := by
  induction pre with
  | nil => simp [removeFirstUnpinned, he]
  | cons a t ih =>
      rw [List.cons_append]
      unfold removeFirstUnpinned
      rw [if_neg (hpre a (List.mem_cons_self a t)),
        ih fun x hx => hpre x (List.mem_cons_of_mem a hx)]
      rfl

theorem evictLoopFuel_fired (n : Nat) :
    ∀ s : Shard, ∃ t, (evictLoopFuel n s).fired = s.fired ++ t := by
  induction n with
  | zero =>
      intro s
      exact ⟨[], by simp [evictLoopFuel]⟩
  | succ m ih =>
      intro s
      unfold evictLoopFuel
      by_cases hp : s.capacity < usage s
      · rw [if_pos hp]
        cases hru : removeFirstUnpinned s.recency with
        | none => exact ⟨[], by simp⟩
        | some r =>
            obtain ⟨t, ht⟩ :=
              ih { s with recency := r.2, fired := s.fired ++ [(r.1.key, r.1.value)] }
            exact ⟨(r.1.key, r.1.value) :: t, by rw [ht]; simp⟩
      · rw [if_neg hp]
        exact ⟨[], by simp⟩

theorem evictLoopFuel_noop (n : Nat) (s : Shard) (h : ¬ s.capacity < usage s) :
    evictLoopFuel n s = s := by
  cases n with
  | zero => rfl
  | succ m =>
      unfold evictLoopFuel
      rw [if_neg h]

theorem removeFirstKey_decomp (k : Nat) (pre : List Entry) (e : Entry) (post : List Entry)
    (hpre : ∀ x ∈ pre, x.key ≠ k) (he : e.key = k) :
    removeFirstKey k (pre ++ e :: post) = (some e, pre ++ post) := by
  induction pre with
  | nil => simp [removeFirstKey, he]
  | cons a t ih =>
      rw [List.cons_append]
      unfold removeFirstKey
      rw [if_neg (hpre a (List.mem_cons_self a t)),
        ih fun x hx => hpre x (List.mem_cons_of_mem a hx)]
      rfl

theorem find?_decomp (f : Entry → Bool) (pre : List Entry) (e : Entry) (post : List Entry)
    (hpre : ∀ x ∈ pre, f x = false) (he : f e = true) :
    (pre ++ e :: post).find? f = some e := by
  induction pre with
  | nil => simp [List.find?_cons_of_pos, he]
  | cons a t ih =>
      rw [List.cons_append, List.find?_cons_of_neg _
        (by rw [hpre a (List.mem_cons_self a t)]; simp)]
      exact ih fun x hx => hpre x (List.mem_cons_of_mem a hx)

/-- C7: FIFO policy.  A lookup (hit or miss) changes nothing observable but
the pin count of the looked-up entry: the eviction order and every entry's
key/value/charge are untouched, as are the zombies, the callback log, the
capacity, the policy, the id counter and the usage.  And under capacity
pressure the entry evicted first is the head-most unpinned entry — the
earliest-inserted unpinned one, whatever lookups happened in between. -/
theorem fifo_policy_spec (s : Shard) (hpol : s.policy = EvictionPolicy.FIFO) :
    (∀ k, ((Lookup s k).2).recency.map stripRefs = s.recency.map stripRefs ∧
      ((Lookup s k).2).zombies = s.zombies ∧
      ((Lookup s k).2).fired = s.fired ∧
      ((Lookup s k).2).capacity = s.capacity ∧
      ((Lookup s k).2).policy = s.policy ∧
      ((Lookup s k).2).next_id = s.next_id ∧
      usage ((Lookup s k).2) = usage s) ∧
    (∀ pre e post, s.recency = pre ++ e :: post → (∀ x, x ∈ pre → x.refs ≠ 0) →
      e.refs = 0 → s.capacity < usage s →
      ∃ rest, (evictLoop s).fired = s.fired ++ (e.key, e.value) :: rest) := by
  constructor
  · intro k
    unfold Lookup
    cases hfind : s.recency.find? fun e => e.key = k with
    | none => exact ⟨rfl, rfl, rfl, rfl, rfl, rfl, rfl⟩
    | some e0 =>
        rw [hpol]
        exact ⟨bumpFirst_map_stripRefs k s.recency, rfl, rfl, rfl, rfl, rfl,
          bumpFirst_charges k s.recency⟩
  · intro pre e post hr hpre he hcap
    unfold evictLoop
    cases hlen : s.recency.length with
    | zero =>
        rw [hr] at hlen
        simp at hlen
    | succ m =>
        unfold evictLoopFuel
        rw [if_pos hcap, hr, removeFirstUnpinned_decomp pre e post hpre he]
        obtain ⟨t, ht⟩ := evictLoopFuel_fired m
          { s with recency := pre ++ post, fired := s.fired ++ [(e.key, e.value)] }
        refine ⟨t, ?_⟩
        rw [ht]
        simp

/-- C8: pinned entries are never freed and their callback never fires while
a handle is live — an erase or a same-key re-insert moves a pinned entry to
the zombie list intact, firing nothing for it; releasing the last handle of
such an entry fires the registered callback exactly once, with the entry's
original key and value, and frees it; releasing a non-last handle only
decrements the pin count. -/
theorem cache_pinned_spec (s : Shard) (e : Entry) (k : Nat) (hk : e.key = k)
    (hpin : e.refs ≠ 0) :
    (∀ pre post, s.recency = pre ++ e :: post → (∀ x, x ∈ pre → x.key ≠ k) →
      (Erase s k).fired = s.fired ∧ (Erase s k).zombies = s.zombies ++ [e] ∧
        (Erase s k).recency = pre ++ post) ∧
    (∀ v c pre post, s.recency = pre ++ e :: post → (∀ x, x ∈ pre → x.key ≠ k) →
      ((pre ++ post).map Entry.charge).sum + c ≤ s.capacity →
      (Insert s k v c).2.fired = s.fired ∧
        (Insert s k v c).2.zombies = s.zombies ++ [e]) ∧
    (∀ zpre zpost, s.zombies = zpre ++ e :: zpost →
      (∀ x, x ∈ s.recency → x.eid ≠ e.eid) → (∀ x, x ∈ zpre → x.eid ≠ e.eid) →
      (∀ x, x ∈ zpost → x.eid ≠ e.eid) →
      (e.refs = 1 →
        (Release s e.eid).fired = s.fired ++ [(e.key, e.value)] ∧
        (Release s e.eid).zombies = zpre ++ zpost) ∧
      (2 ≤ e.refs →
        (Release s e.eid).fired = s.fired ∧
        (Release s e.eid).zombies = zpre ++ { e with refs := e.refs - 1 } :: zpost)) := by
  refine ⟨?_, ?_, ?_⟩
  · intro pre post hr hpre
    unfold Erase
    rw [hr, removeFirstKey_decomp k pre e post hpre hk]
    simp [retire, hpin]
  · intro v c pre post hr hpre hcap
    have hnoop : ∀ s2 : Shard, s2.capacity = s.capacity →
        s2.recency = (pre ++ post) ++
          [{ eid := s.next_id, key := k, value := v, charge := c, refs := 1 }] →
        ¬ s2.capacity < usage s2 := by
      intro s2 h1 h2
      rw [h1]
      unfold usage
      rw [h2, List.map_append, List.sum_append]
      simp only [List.map_cons, List.map_nil, List.sum_cons, List.sum_nil]
      omega
    have hins : Insert s k v c =
        (s.next_id, evictLoop
          { s with
            recency := (pre ++ post) ++
              [{ eid := s.next_id, key := k, value := v, charge := c, refs := 1 }]
            zombies := s.zombies ++ [e]
            fired := s.fired
            next_id := s.next_id + 1 }) := by
      unfold Insert
      rw [hr, removeFirstKey_decomp k pre e post hpre hk]
      simp [retire, hpin]
    rw [hins]
    unfold evictLoop
    rw [evictLoopFuel_noop _
      { s with
        recency := (pre ++ post) ++
          [{ eid := s.next_id, key := k, value := v, charge := c, refs := 1 }]
        zombies := s.zombies ++ [e]
        fired := s.fired
        next_id := s.next_id + 1 }
      (hnoop _ rfl rfl)]
    exact ⟨rfl, rfl⟩
  · intro zpre zpost hz hrec hzpre hzpost
    have hany : (s.recency.any fun x => x.eid = e.eid) = false := by
      cases hA : s.recency.any fun x => x.eid = e.eid
      · rfl
      · obtain ⟨x, hx, hxe⟩ := List.any_eq_true.mp hA
        exact absurd (of_decide_eq_true hxe) (hrec x hx)
    have hfind : (s.zombies.find? fun z => z.eid = e.eid) = some e := by
      rw [hz]
      exact find?_decomp _ zpre e zpost
        (fun x hx => by simp [hzpre x hx]) (by simp)
    constructor
    · intro h1
      unfold Release
      rw [hany, if_neg (by simp)]
      simp only [hfind]
      rw [if_pos (by omega : e.refs ≤ 1)]
      refine ⟨rfl, ?_⟩
      show (s.zombies.filter fun z => z.eid ≠ e.eid) = zpre ++ zpost
      rw [hz, List.filter_append, List.filter_cons]
      rw [if_neg (by simp)]
      rw [List.filter_eq_self.mpr fun x hx => by simp [hzpre x hx],
        List.filter_eq_self.mpr fun x hx => by simp [hzpost x hx]]
    · intro h2
      unfold Release
      rw [hany, if_neg (by simp)]
      simp only [hfind]
      rw [if_neg (by omega : ¬ e.refs ≤ 1)]
      refine ⟨rfl, ?_⟩
      show (s.zombies.map fun z =>
          if z.eid = e.eid then { z with refs := z.refs - 1 } else z) =
        zpre ++ { e with refs := e.refs - 1 } :: zpost
      rw [hz, List.map_append, List.map_cons, if_pos rfl]
      rw [List.map_congr_left fun x hx => if_neg (hzpre x hx),
        List.map_congr_left fun x hx => if_neg (hzpost x hx)]
      simp

theorem fifo_policy_spec_witness :
    (Lookup
        { policy := EvictionPolicy.FIFO, capacity := 2
          recency := [{ eid := 0, key := 0, value := 10, charge := 2, refs := 0 },
                      { eid := 1, key := 1, value := 11, charge := 2, refs := 0 }]
          zombies := [], fired := [], next_id := 2 } 1).2.recency.map stripRefs =
      ({ policy := EvictionPolicy.FIFO, capacity := 2
         recency := [{ eid := 0, key := 0, value := 10, charge := 2, refs := 0 },
                     { eid := 1, key := 1, value := 11, charge := 2, refs := 0 }]
         zombies := [], fired := [], next_id := 2 } : Shard).recency.map stripRefs ∧
    ∃ rest, (evictLoop
        { policy := EvictionPolicy.FIFO, capacity := 2
          recency := [{ eid := 0, key := 0, value := 10, charge := 2, refs := 0 },
                      { eid := 1, key := 1, value := 11, charge := 2, refs := 0 }]
          zombies := [], fired := [], next_id := 2 }).fired =
      ({ policy := EvictionPolicy.FIFO, capacity := 2
         recency := [{ eid := 0, key := 0, value := 10, charge := 2, refs := 0 },
                     { eid := 1, key := 1, value := 11, charge := 2, refs := 0 }]
         zombies := [], fired := [], next_id := 2 } : Shard).fired ++
        ((0 : Nat), (10 : Nat)) :: rest :=
  ⟨((fifo_policy_spec _ rfl).1 1).1,
    (fifo_policy_spec _ rfl).2 []
      { eid := 0, key := 0, value := 10, charge := 2, refs := 0 }
      [{ eid := 1, key := 1, value := 11, charge := 2, refs := 0 }]
      rfl (by simp) rfl (by decide)⟩

theorem cache_pinned_spec_witness :
    (Release
        { policy := EvictionPolicy.FIFO, capacity := 100
          recency := []
          zombies := [{ eid := 0, key := 1, value := 2, charge := 1, refs := 1 }]
          fired := [], next_id := 5 } 0).fired = [] ++ [(1, 2)] ∧
    (Release
        { policy := EvictionPolicy.FIFO, capacity := 100
          recency := []
          zombies := [{ eid := 0, key := 1, value := 2, charge := 1, refs := 1 }]
          fired := [], next_id := 5 } 0).zombies = [] ++ [] :=
  ((cache_pinned_spec
      { policy := EvictionPolicy.FIFO, capacity := 100
        recency := []
        zombies := [{ eid := 0, key := 1, value := 2, charge := 1, refs := 1 }]
        fired := [], next_id := 5 }
      { eid := 0, key := 1, value := 2, charge := 1, refs := 1 } 1 rfl
      (by decide)).2.2 [] [] rfl (by simp) (by simp) (by simp)).1 rfl

theorem invalidate_spec_witness :
    ∃ n, n ≤ ({ policy := EvictionPolicy.FIFO, capacity := 10
                recency := [{ eid := 0, key := 3, value := 4, charge := 1, refs := 0 }]
                zombies := [], fired := [], next_id := 1 } : Shard).recency.length ∧
      (Invalidate
          { policy := EvictionPolicy.FIFO, capacity := 10
            recency := [{ eid := 0, key := 3, value := 4, charge := 1, refs := 0 }]
            zombies := [], fired := [], next_id := 1 }
          defaultInvalidationControl).1 =
        invalidCount defaultInvalidationControl
          (({ policy := EvictionPolicy.FIFO, capacity := 10
              recency := [{ eid := 0, key := 3, value := 4, charge := 1, refs := 0 }]
              zombies := [], fired := [], next_id := 1 } : Shard).recency.take n) := by
  obtain ⟨n, h1, h2, -⟩ := invalidate_spec
    { policy := EvictionPolicy.FIFO, capacity := 10
      recency := [{ eid := 0, key := 3, value := 4, charge := 1, refs := 0 }]
      zombies := [], fired := [], next_id := 1 }
    defaultInvalidationControl
  exact ⟨n, h1, h2⟩

end Kudu
